import Mathlib

/-!
Shallow embedding of the Hangman program (Hangman.c, HangmanLib.c).

The char[MAX_LENGTH] buffers of the C program are modelled as functions
from Nat to Char; only the indices 0 .. MAX_LENGTH - 1 are relevant.
The C string stored in such a buffer is read back with cstr, which
collects the characters up to the first NUL byte, capped at MAX_LENGTH
(the buffer size).  The interactive parts are modelled by passing the
stream of input lines explicitly; printf output relevant to the claims
is modelled as lists of characters.
-/

namespace Hangman

/-- MAX_LENGTH, HangmanLib.c line 7. -/
def MAX_LENGTH : Nat := 40

/-- The NUL terminator byte of a C string. -/
def nulChar : Char := '\x00'

/-- The newline character kept by fgets. -/
def nlChar : Char := '\n'

/-- A char[MAX_LENGTH] buffer of the C program. -/
abbrev Buf := Nat → Char

/-- The characters accepted by isalpha in the C locale, as used by
IsValidWord, GetValidLetter and ConvertToBoard. -/
def isalphaChar (c : Char) : Bool :=
  ('a' ≤ c && c ≤ 'z') || ('A' ≤ c && c ≤ 'Z')

/-- Characters of the C string stored in a buffer from index i on:
everything up to the first NUL byte, reading at most fuel characters. -/
def cstrFrom (f : Buf) (i fuel : Nat) : List Char :=
  match fuel with
  | 0 => []
  | fuel + 1 => if f i = nulChar then [] else f i :: cstrFrom f (i + 1) fuel

/-- The C string stored in a MAX_LENGTH buffer (what strcmp and printf
with a string conversion look at). -/
def cstr (f : Buf) : List Char := cstrFrom f 0 MAX_LENGTH

/-- strlen of the C string stored in a buffer. -/
def strlenB (f : Buf) : Nat := (cstr f).length

/-- ConvertToBoard, HangmanLib.c lines 312-321: positions below
strlen(WordToGuess) become an underscore when alphabetic and are kept
verbatim otherwise; the position at strlen is NUL-terminated; the rest
of the board buffer keeps its previous (uninitialised) content b0. -/
def ConvertToBoard (t b0 : Buf) : Buf := fun i =>
  if i < strlenB t then (if isalphaChar (t i) then '_' else t i)
  else if i = strlenB t then nulChar
  else b0 i

/-- The board update of the guess loop in ResolveState, HangmanLib.c
lines 352-357: every index i below MAX_LENGTH whose target-buffer byte
equals the guessed letter receives the letter. -/
def scanBoard (t b : Buf) (letter : Char) : Buf := fun i =>
  if i < MAX_LENGTH ∧ t i = letter then letter else b i

/-- The found flag of the same loop: whether any of the MAX_LENGTH
buffer positions holds the guessed letter. -/
def scanFound (t : Buf) (letter : Char) : Bool :=
  (List.range MAX_LENGTH).any (fun i => t i == letter)

/-- One round of the game: the word buffer, the board buffer and the
wrong-guess counter (the variable state of WordGuessing). -/
structure RoundState where
  target : Buf
  board : Buf
  state : Nat

/-- Applying one validated guessed letter, ResolveState lines 352-358
together with the increment of state in WordGuessing line 408: the board
is updated by the scan and state grows by one exactly when the scan
found no occurrence of the letter. -/
def stepGuess (r : RoundState) (letter : Char) : RoundState :=
  { target := r.target
    board := scanBoard r.target r.board letter
    state := if scanFound r.target letter then r.state else r.state + 1 }

/-- Observable status of a round, from the WordGuessing loop of
HangmanLib.c lines 406-413: the round is won as soon as strcmp finds the
board equal to the word, lost once state has reached 6 (the iteration
entered with state greater than 5 only prints the Game Over banner), and
in progress otherwise. -/
inductive Status where
  | InProgress
  | Won
  | Lost
  deriving DecidableEq

/-- Compute the status of a round state. -/
def status (r : RoundState) : Status :=
  if cstr r.board = cstr r.target then Status.Won
  else if 6 ≤ r.state then Status.Lost
  else Status.InProgress

/-- A guessed letter is resolved only while the round is in progress:
the WordGuessing loop stops once the board matches the word or state
passes 6, and ResolveState with state greater than 5 returns without
reading a guess (lines 341-344). -/
def applyGuess (r : RoundState) (letter : Char) : RoundState :=
  if status r = Status.InProgress then stepGuess r letter else r

/-- Resolving a whole sequence of validated guessed letters. -/
def playGuesses (r : RoundState) (g : List Char) : RoundState :=
  g.foldl applyGuess r

/-- Round construction from a filled word buffer, WordGuessing lines
403-405: the board is derived with ConvertToBoard (over the board
buffer's uninitialised content b0) and state starts at 0. -/
def mkRound (t b0 : Buf) : RoundState :=
  { target := t, board := ConvertToBoard t b0, state := 0 }

/-- One fgets of a file line (without its newline) into a buffer:
the line's characters, the kept newline, a NUL terminator, and the
previous buffer content beyond that. -/
def fgetsBuf (b : Buf) (line : List Char) : Buf := fun i =>
  if i < line.length then line.getD i nulChar
  else if i = line.length then nlChar
  else if i = line.length + 1 then nulChar
  else b i

/-- strcspn(buffer, newline string): the number of leading characters of
the stored C string that are neither a newline nor NUL. -/
def strcspnNl (b : Buf) : Nat :=
  (((List.range MAX_LENGTH).map b).takeWhile
    (fun c => !(c == nlChar) && !(c == nulChar))).length

/-- The newline removal of SelectWord, HangmanLib.c line 383. -/
def stripNl (b : Buf) : Buf := fun i =>
  if i = strcspnNl b then nulChar else b i

/-- SelectWord, HangmanLib.c lines 371-384: fgets reads the file lines
one after another into the same buffer up to the randomly chosen index
k, then the newline of the last line read is replaced by NUL.  Bytes of
earlier, longer lines beyond the final word's terminator remain in the
buffer. -/
def SelectWord (b0 : Buf) (lines : List (List Char)) (k : Nat) : Buf :=
  stripNl ((lines.take (k + 1)).foldl fgetsBuf b0)

/-- A fresh round as WordGuessing assembles it from the word file:
word selection followed by board initialisation; t0 and b0 are the
uninitialised contents of the two stack buffers. -/
def startRound (lines : List (List Char)) (k : Nat) (t0 b0 : Buf) : RoundState :=
  mkRound (SelectWord t0 lines k) b0

/-- CountWordsInFile, HangmanLib.c lines 188-194, for a file whose lines
each fit in the MAX_LENGTH buffer: the number of lines. -/
def CountWordsInFile (lines : List (List Char)) : Nat := lines.length

/-- Entry of WordGuessing, lines 396-405: either the refusal to start
(message and clean exit code 0) or the assembled round. -/
inductive PlayOutcome where
  | refused (msg : List Char) (exitCode : Nat)
  | started (r : RoundState)

/-- The message printed by WordGuessing when the file holds no words. -/
def noWordsMsg : List Char := ("No words to guess.\n").toList

/-- WordGuessing, lines 396-405: with no words the round is refused with
a user-facing message and exit code 0; otherwise the round starts from
the word at the drawn index k. -/
def WordGuessing (lines : List (List Char)) (k : Nat) (t0 b0 : Buf) : PlayOutcome :=
  if CountWordsInFile lines ≤ 0 then PlayOutcome.refused noWordsMsg 0
  else PlayOutcome.started (startRound lines k t0 b0)

/-- Leading text of the Game Over banner of ResolveState line 342. -/
def gameOverPre : List Char := ("Game Over!\nThe word was ").toList

/-- Trailing text of the same banner. -/
def gameOverTail : List Char := (". \n").toList

/-- The Game Over banner printed when the loop re-enters ResolveState
with state greater than 5: it reveals the target word. -/
def lostBanner (r : RoundState) : List Char :=
  gameOverPre ++ cstr r.target ++ gameOverTail

/-- IsValidWord, HangmanLib.c lines 125-138. -/
def IsValidWord (w : List Char) : Bool :=
  if w.length < 2 then false else w.all isalphaChar

/-- The diagnostic IsValidWord prints on rejection, naming the word. -/
def invalidWordMsg (w : List Char) : List Char :=
  ("Invalid word ").toList ++ w ++ [nlChar]

/-- The output of IsValidWord: one diagnostic on either rejection path
(too short, or a non-alphabetic character), nothing on acceptance. -/
def IsValidWordMsgs (w : List Char) : List (List Char) :=
  if w.length < 2 then [invalidWordMsg w]
  else if w.all isalphaChar then [] else [invalidWordMsg w]

/-- WordAlreadyInFile, HangmanLib.c lines 91-111: some stored line
compares equal to the word under strcmp. -/
def WordAlreadyInFile (fileLines : List (List Char)) (w : List Char) : Bool :=
  fileLines.any (fun l => l == w)

/-- WordInsertion, HangmanLib.c lines 150-175, over the stream of
already newline-stripped input lines: the literal line 0 stops the
session; an invalid word makes the function return (ending the whole
session); a valid word is appended exactly when WordAlreadyInFile does
not find it. -/
def WordInsertionLoop (fileLines : List (List Char)) (inputs : List (List Char)) :
    List (List Char) :=
  match inputs with
  | [] => fileLines
  | l :: ls =>
    if l = [('0' : Char)] then fileLines
    else if IsValidWord l then
      (if WordAlreadyInFile fileLines l then WordInsertionLoop fileLines ls
       else WordInsertionLoop (fileLines ++ [l]) ls)
    else fileLines

/-- The acceptance condition of GetValidLetter, HangmanLib.c lines
282-300: the input line is exactly one alphabetic character. -/
def IsSingleLetter (l : List Char) : Bool :=
  match l with
  | [c] => isalphaChar c
  | _ => false

/-- The diagnostic GetValidLetter prints on an invalid entry. -/
def invalidLetterMsg : List Char :=
  ("Invalid input. Please enter only one letter.\n").toList

/-- The flush of GetValidLetter, HangmanLib.c lines 290 and 296:
while (fgetc != newline && fgetc != EOF).  Each iteration reads one
character and stops when it is a newline; otherwise it reads a second
character and stops only when that one is EOF (the single-character case
below) — a newline read as the second character of a pair is swallowed,
so the flush can consume characters of the following input lines.  The
argument is the stream of characters still unread; the exhausted list
plays the role of EOF. -/
def flushLoop : List Char → List Char
  | [] => []
  | [_] => []
  | c1 :: c2 :: rest2 =>
    if c1 = nlChar then c2 :: rest2 else flushLoop rest2

/-- The extra-character check of GetValidLetter, HangmanLib.c lines
288-293, after an alphabetic character ch was read: a newline (or end of
input) confirms ch as the guess, anything else triggers the flush and
the NUL return. -/
def checkExtra (ch : Char) : List Char → Char × List Char
  | [] => (ch, [])
  | e :: rest2 =>
    if e = nlChar then (ch, rest2) else (nulChar, flushLoop rest2)

/-- GetValidLetter, HangmanLib.c lines 282-300, on the stream of unread
characters: an alphabetic character goes through the extra-character
check; anything else makes the function flush and return NUL. -/
def GetValidLetter : List Char → Char × List Char
  | [] => (nulChar, [])
  | ch :: rest =>
    if isalphaChar ch then checkExtra ch rest else (nulChar, flushLoop rest)

/-- The output of the extra-character check. -/
def checkExtraMsgs : List Char → List (List Char)
  | [] => []
  | e :: _ => if e = nlChar then [] else [invalidLetterMsg]

/-- The output of one GetValidLetter call: the diagnostic is printed on
exactly the paths that return NUL. -/
def GetValidLetterMsgs : List Char → List (List Char)
  | [] => [invalidLetterMsg]
  | ch :: rest =>
    if isalphaChar ch then checkExtraMsgs rest else [invalidLetterMsg]

/-- The do-while re-prompt loop around GetValidLetter in ResolveState
lines 347-349, with explicit fuel: GetValidLetter is called again as
long as it returns NUL.  Every rejected call on a nonempty stream
consumes at least one character, so fuel equal to the stream's length is
never the reason an obtainable letter is missed; on an exhausted stream
the C loop never returns (fgetc keeps yielding EOF) and the model
yields none. -/
def getValidLetterFuel : Nat → List Char → Option (Char × List Char)
  | 0, _ => none
  | fuel + 1, s =>
    let res := GetValidLetter s
    if res.1 = nulChar then getValidLetterFuel fuel res.2 else some res

/-- The re-prompt loop run on a character stream. -/
def getValidLetterLoop (s : List Char) : Option (Char × List Char) :=
  getValidLetterFuel s.length s

/-- One ResolveState guess over the stream of unread input characters:
the re-prompt loop yields the first accepted letter (leaving the round
untouched meanwhile), which is then resolved with stepGuess. -/
def resolveWithInputs (r : RoundState) (s : List Char) :
    RoundState × List Char :=
  match getValidLetterLoop s with
  | none => (r, [])
  | some (c, rest) => (stepGuess r c, rest)

/-- An all-NUL buffer, used as a concrete uninitialised content. -/
def zeroBuf : Buf := fun _ => nulChar

/-- A clean buffer holding just the given word followed by NUL bytes. -/
def mkBuf (w : List Char) : Buf := fun i => w.getD i nulChar

/-- A clean word buffer holding the target cat. -/
def tCat : Buf := mkBuf (("cat").toList)

/-- A fresh round on the clean target cat. -/
def rCat : RoundState := mkRound tCat zeroBuf

/-- The round obtained from the word file with lines chants and cat when
the random draw picks index 1: the word is cat, and the byte s of the
longer previous line chants persists in the word buffer at index 5,
past the terminator. -/
def rcEx : RoundState :=
  startRound [("chants").toList, ("cat").toList] 1 zeroBuf zeroBuf

/-- Six guesses none of which occurs in the word cat; the first one, s,
does occur in the residual buffer bytes of rcEx. -/
def sMisses : List Char := ['s', 'x', 'y', 'z', 'q', 'w']

/-- Six guesses that occur neither in the word cat nor anywhere in a
clean cat buffer. -/
def sixMisses : List Char := ['x', 'y', 'z', 'q', 'w', 'e']

/-- The word ab as a character list. -/
def abWord : List Char := ("ab").toList

/-! Basic facts about C strings read from buffers. -/

theorem cstrFrom_length_le (f : Buf) : ∀ (fuel i : Nat), (cstrFrom f i fuel).length ≤ fuel := by
  intro fuel
  induction fuel with
  | zero => intro i; simp [cstrFrom]
  | succ n ih =>
    intro i
    by_cases h : f i = nulChar
    · simp [cstrFrom, h]
    · simp only [cstrFrom, h, if_false, List.length_cons]
      have := ih (i + 1)
      omega

theorem strlenB_le (f : Buf) : strlenB f ≤ MAX_LENGTH :=
  cstrFrom_length_le f MAX_LENGTH 0

theorem cstrFrom_nul_at (f : Buf) :
    ∀ fuel i, (cstrFrom f i fuel).length < fuel →
      f (i + (cstrFrom f i fuel).length) = nulChar := by
  intro fuel
  induction fuel with
  | zero => intro i h; exact absurd h (Nat.not_lt_zero _)
  | succ n ih =>
    intro i h
    by_cases hf : f i = nulChar
    · simp [cstrFrom, hf]
    · simp only [cstrFrom, hf, if_false, List.length_cons] at h ⊢
      have h2 : (cstrFrom f (i + 1) n).length < n := by omega
      have h3 := ih (i + 1) h2
      have e : i + ((cstrFrom f (i + 1) n).length + 1)
          = (i + 1) + (cstrFrom f (i + 1) n).length := by omega
      rw [e]
      exact h3

theorem cstr_nul_at (f : Buf) (h : strlenB f < MAX_LENGTH) : f (strlenB f) = nulChar := by
  have := cstrFrom_nul_at f MAX_LENGTH 0 h
  simpa using this

theorem cstrFrom_pos_ne (f : Buf) :
    ∀ fuel i j, j < (cstrFrom f i fuel).length → f (i + j) ≠ nulChar := by
  intro fuel
  induction fuel with
  | zero => intro i j h; simp [cstrFrom] at h
  | succ n ih =>
    intro i j h
    by_cases hf : f i = nulChar
    · simp [cstrFrom, hf] at h
    · simp only [cstrFrom, hf, if_false, List.length_cons] at h
      cases j with
      | zero => simpa using hf
      | succ m =>
        have h2 := ih (i + 1) m (by omega)
        have e : i + (m + 1) = (i + 1) + m := by omega
        rw [e]
        exact h2

theorem cstr_pos_ne (f : Buf) (j : Nat) (h : j < strlenB f) : f j ≠ nulChar := by
  have := cstrFrom_pos_ne f MAX_LENGTH 0 j h
  simpa using this

theorem cstrFrom_getD (f : Buf) :
    ∀ fuel i j, j < (cstrFrom f i fuel).length →
      (cstrFrom f i fuel).getD j nulChar = f (i + j) := by
  intro fuel
  induction fuel with
  | zero => intro i j h; simp [cstrFrom] at h
  | succ n ih =>
    intro i j h
    by_cases hf : f i = nulChar
    · simp [cstrFrom, hf] at h
    · simp only [cstrFrom, hf, if_false, List.length_cons] at h ⊢
      cases j with
      | zero => simp
      | succ m =>
        have h2 := ih (i + 1) m (by omega)
        have e : i + (m + 1) = (i + 1) + m := by omega
        rw [List.getD_cons_succ, e]
        exact h2

theorem cstr_getD (f : Buf) (j : Nat) (h : j < strlenB f) :
    (cstr f).getD j nulChar = f j := by
  have := cstrFrom_getD f MAX_LENGTH 0 j h
  simpa using this

theorem mem_cstrFrom (f : Buf) :
    ∀ fuel i c, c ∈ cstrFrom f i fuel →
      ∃ j, j < (cstrFrom f i fuel).length ∧ f (i + j) = c := by
  intro fuel
  induction fuel with
  | zero => intro i c h; simp [cstrFrom] at h
  | succ n ih =>
    intro i c h
    by_cases hf : f i = nulChar
    · simp [cstrFrom, hf] at h
    · simp only [cstrFrom, hf, if_false, List.mem_cons] at h
      simp only [cstrFrom, hf, if_false, List.length_cons]
      rcases h with h | h
      · exact ⟨0, by omega, by simpa using h.symm⟩
      · obtain ⟨m, hm, hmc⟩ := ih (i + 1) c h
        refine ⟨m + 1, by omega, ?_⟩
        have e : i + (m + 1) = (i + 1) + m := by omega
        rw [e]
        exact hmc

theorem mem_cstr (f : Buf) (c : Char) (h : c ∈ cstr f) :
    ∃ j, j < strlenB f ∧ f j = c := by
  have := mem_cstrFrom f MAX_LENGTH 0 c h
  simpa using this

theorem cstrFrom_mem_of_lt (f : Buf) :
    ∀ fuel i j, j < (cstrFrom f i fuel).length → f (i + j) ∈ cstrFrom f i fuel := by
  intro fuel
  induction fuel with
  | zero => intro i j h; simp [cstrFrom] at h
  | succ n ih =>
    intro i j h
    by_cases hf : f i = nulChar
    · simp [cstrFrom, hf] at h
    · simp only [cstrFrom, hf, if_false, List.length_cons] at h ⊢
      cases j with
      | zero => simp
      | succ m =>
        have h2 := ih (i + 1) m (by omega)
        have e : i + (m + 1) = (i + 1) + m := by omega
        rw [e]
        exact List.mem_cons_of_mem _ h2

theorem cstr_mem (f : Buf) (j : Nat) (h : j < strlenB f) : f j ∈ cstr f := by
  have := cstrFrom_mem_of_lt f MAX_LENGTH 0 j h
  simpa using this

theorem cstrFrom_congrUntil (f g : Buf) :
    ∀ fuel n i, n ≤ fuel →
      (∀ j, j < n → f (i + j) = g (i + j)) →
      f (i + n) = nulChar → g (i + n) = nulChar →
      cstrFrom f i fuel = cstrFrom g i fuel := by
  intro fuel
  induction fuel with
  | zero => intro n i _ _ _ _; simp [cstrFrom]
  | succ m ih =>
    intro n i hn hagree hf hg
    cases n with
    | zero =>
      have hf0 : f i = nulChar := by simpa using hf
      have hg0 : g i = nulChar := by simpa using hg
      simp [cstrFrom, hf0, hg0]
    | succ k =>
      have h0 : f i = g i := by simpa using hagree 0 (by omega)
      by_cases hnul : f i = nulChar
      · have : g i = nulChar := by rw [← h0]; exact hnul
        simp [cstrFrom, hnul, this]
      · have hgnul : ¬ g i = nulChar := by rw [← h0]; exact hnul
        simp only [cstrFrom, hnul, hgnul, if_false]
        refine congrArg₂ _ h0 ?_
        refine ih k (i + 1) (by omega) ?_ ?_ ?_
        · intro j hj
          have := hagree (j + 1) (by omega)
          have e : i + (j + 1) = (i + 1) + j := by omega
          rw [e] at this
          exact this
        · have e : i + (k + 1) = (i + 1) + k := by omega
          rw [e] at hf
          exact hf
        · have e : i + (k + 1) = (i + 1) + k := by omega
          rw [e] at hg
          exact hg

theorem cstr_congr (f g : Buf) (n : Nat) (hn : n ≤ MAX_LENGTH)
    (hagree : ∀ j, j < n → f j = g j) (hf : f n = nulChar) (hg : g n = nulChar) :
    cstr f = cstr g := by
  refine cstrFrom_congrUntil f g MAX_LENGTH n 0 hn ?_ (by simpa using hf) (by simpa using hg)
  intro j hj
  simpa using hagree j hj

/-! Facts about the guess scan and the round step. -/

theorem scanFound_iff (t : Buf) (l : Char) :
    scanFound t l = true ↔ ∃ i, i < MAX_LENGTH ∧ t i = l := by
  simp [scanFound, List.any_eq_true, List.mem_range, beq_iff_eq]

theorem scanFound_false_iff (t : Buf) (l : Char) :
    scanFound t l = false ↔ ∀ i, i < MAX_LENGTH → t i ≠ l := by
  rw [Bool.eq_false_iff, Ne, scanFound_iff]
  push_neg
  rfl

theorem scanBoard_hit (t b : Buf) (l : Char) (i : Nat)
    (hi : i < MAX_LENGTH) (ht : t i = l) : scanBoard t b l i = l := by
  simp [scanBoard, hi, ht]

theorem scanBoard_skip (t b : Buf) (l : Char) (i : Nat)
    (h : ¬(i < MAX_LENGTH ∧ t i = l)) : scanBoard t b l i = b i := by
  simp only [scanBoard]
  rw [if_neg h]

theorem scanBoard_miss (t b : Buf) (l : Char)
    (h : ∀ i, i < MAX_LENGTH → t i ≠ l) : scanBoard t b l = b := by
  funext i
  refine scanBoard_skip t b l i ?_
  rintro ⟨h1, h2⟩
  exact h i h1 h2

theorem stepGuess_target (r : RoundState) (l : Char) : (stepGuess r l).target = r.target := rfl

theorem stepGuess_board (r : RoundState) (l : Char) :
    (stepGuess r l).board = scanBoard r.target r.board l := rfl

theorem stepGuess_state_hit (r : RoundState) (l : Char)
    (h : scanFound r.target l = true) : (stepGuess r l).state = r.state := by
  simp [stepGuess, h]

theorem stepGuess_state_miss (r : RoundState) (l : Char)
    (h : scanFound r.target l = false) : (stepGuess r l).state = r.state + 1 := by
  simp [stepGuess, h]

theorem applyGuess_of_progress (r : RoundState) (l : Char)
    (h : status r = Status.InProgress) : applyGuess r l = stepGuess r l := by
  simp [applyGuess, h]

theorem applyGuess_of_stopped (r : RoundState) (l : Char)
    (h : status r ≠ Status.InProgress) : applyGuess r l = r := by
  simp [applyGuess, h]

theorem applyGuess_target (r : RoundState) (l : Char) : (applyGuess r l).target = r.target := by
  by_cases h : status r = Status.InProgress
  · rw [applyGuess_of_progress r l h, stepGuess_target]
  · rw [applyGuess_of_stopped r l h]

theorem playGuesses_nil (r : RoundState) : playGuesses r [] = r := rfl

theorem playGuesses_cons (r : RoundState) (l : Char) (g : List Char) :
    playGuesses r (l :: g) = playGuesses (applyGuess r l) g := rfl

theorem playGuesses_inv (P : RoundState → Prop)
    (h : ∀ r l, P r → P (applyGuess r l)) :
    ∀ g r, P r → P (playGuesses r g) := by
  intro g
  induction g with
  | nil => intro r hr; exact hr
  | cons l ls ih => intro r hr; exact ih (applyGuess r l) (h r l hr)

theorem playGuesses_target : ∀ (g : List Char) (r : RoundState),
    (playGuesses r g).target = r.target := by
  intro g
  induction g with
  | nil => intro r; rfl
  | cons l ls ih =>
    intro r
    rw [playGuesses_cons, ih, applyGuess_target]

/-! Characterisations of the round status. -/

theorem status_won_iff (r : RoundState) :
    status r = Status.Won ↔ cstr r.board = cstr r.target := by
  unfold status
  split_ifs with h1 h2 <;> simp [h1]

theorem status_lost_iff (r : RoundState) :
    status r = Status.Lost ↔ (cstr r.board ≠ cstr r.target ∧ 6 ≤ r.state) := by
  unfold status
  split_ifs with h1 h2
  · simp [h1]
  · simp [h1, h2]
  · simp [h1, h2]

theorem status_inprogress_iff (r : RoundState) :
    status r = Status.InProgress ↔ (cstr r.board ≠ cstr r.target ∧ r.state < 6) := by
  unfold status
  split_ifs with h1 h2
  · simp [h1]
  · constructor
    · intro h; exact absurd h (by decide)
    · rintro ⟨_, hlt⟩; exact absurd hlt (by omega)
  · constructor
    · intro _; exact ⟨h1, by omega⟩
    · intro _; rfl

/-! A run of guesses that the scan never finds: each one increments the
wrong-guess counter and leaves the board untouched. -/

theorem missRun : ∀ (g : List Char) (r : RoundState),
    (∀ l ∈ g, ∀ i, i < MAX_LENGTH → r.target i ≠ l) →
    cstr r.board ≠ cstr r.target →
    r.state + g.length ≤ 6 →
    (playGuesses r g).state = r.state + g.length ∧
    (playGuesses r g).board = r.board ∧
    (playGuesses r g).target = r.target := by
  intro g
  induction g with
  | nil =>
    intro r _ _ _
    exact ⟨by simp [playGuesses], rfl, rfl⟩
  | cons l ls ih =>
    intro r hmiss hne hle
    rw [List.length_cons] at hle
    have hprog : status r = Status.InProgress := by
      rw [status_inprogress_iff]
      exact ⟨hne, by omega⟩
    have hmiss0 : ∀ i, i < MAX_LENGTH → r.target i ≠ l :=
      fun i hi => hmiss l (List.mem_cons_self l ls) i hi
    have hfound : scanFound r.target l = false := by
      rw [scanFound_false_iff]
      exact hmiss0
    have hboard : scanBoard r.target r.board l = r.board :=
      scanBoard_miss r.target r.board l hmiss0
    have hstep : stepGuess r l
        = { target := r.target, board := r.board, state := r.state + 1 } := by
      simp [stepGuess, hfound, hboard]
    rw [playGuesses_cons, applyGuess_of_progress r l hprog, hstep]
    have ihres := ih { target := r.target, board := r.board, state := r.state + 1 }
      (fun l2 hl2 i hi => hmiss l2 (List.mem_cons_of_mem l hl2) i hi)
      hne
      (by show r.state + 1 + ls.length ≤ 6; omega)
    refine ⟨?_, ihres.2.1, ihres.2.2⟩
    rw [ihres.1]
    show r.state + 1 + ls.length = r.state + (l :: ls).length
    rw [List.length_cons]
    omega

/-! A run of guesses all taken from the target word, jointly covering
all its letters: the round is won and the counter never moves. -/

theorem wonRun (t : Buf) (hlen : strlenB t < MAX_LENGTH) :
    ∀ (g : List Char) (r : RoundState),
      r.target = t →
      (∀ l ∈ g, l ∈ cstr t) →
      r.state = 0 →
      r.board (strlenB t) = nulChar →
      (∀ i, i < strlenB t → r.board i = t i ∨ t i ∈ g) →
      status (playGuesses r g) = Status.Won ∧
      (∀ n, (playGuesses r (g.take n)).state = 0) := by
  intro g
  induction g with
  | nil =>
    intro r htarget _ hstate hnul hcov
    have hagree : ∀ i, i < strlenB t → r.board i = t i := by
      intro i hi
      rcases hcov i hi with h | h
      · exact h
      · simp at h
    have hcstr : cstr r.board = cstr t :=
      cstr_congr r.board t (strlenB t) (le_of_lt hlen) hagree hnul (cstr_nul_at t hlen)
    constructor
    · rw [playGuesses_nil, status_won_iff, htarget]
      exact hcstr
    · intro n
      simp only [List.take_nil, playGuesses_nil]
      exact hstate
  | cons l ls ih =>
    intro r htarget hg hstate hnul hcov
    have hlmem : l ∈ cstr t := hg l (List.mem_cons_self l ls)
    obtain ⟨j, hj, hjt⟩ := mem_cstr t l hlmem
    have hlnul : l ≠ nulChar := by
      rw [← hjt]
      exact cstr_pos_ne t j hj
    by_cases hwon : cstr r.board = cstr r.target
    · have hsw : status r = Status.Won := (status_won_iff r).mpr hwon
      have hng : applyGuess r l = r :=
        applyGuess_of_stopped r l (by rw [hsw]; decide)
      have hagree : ∀ i, i < strlenB t → r.board i = t i := by
        intro i hi
        have hbt : cstr r.board = cstr t := by rw [hwon, htarget]
        have hlb : i < strlenB r.board := by
          show i < (cstr r.board).length
          rw [hbt]
          exact hi
        have h1 := cstr_getD r.board i hlb
        have h2 := cstr_getD t i hi
        rw [← h1, hbt, h2]
      have ihres := ih r htarget (fun l2 hl2 => hg l2 (List.mem_cons_of_mem l hl2))
        hstate hnul (fun i hi => Or.inl (hagree i hi))
      constructor
      · rw [playGuesses_cons, hng]
        exact ihres.1
      · intro n
        cases n with
        | zero =>
          simp only [List.take_zero, playGuesses_nil]
          exact hstate
        | succ m =>
          rw [List.take_succ_cons, playGuesses_cons, hng]
          exact ihres.2 m
    · have hprog : status r = Status.InProgress := by
        rw [status_inprogress_iff]
        exact ⟨hwon, by omega⟩
      have hfound : scanFound r.target l = true := by
        rw [htarget, scanFound_iff]
        exact ⟨j, lt_of_lt_of_le hj (strlenB_le t), hjt⟩
      have happ : applyGuess r l = stepGuess r l := applyGuess_of_progress r l hprog
      have hr2target : (stepGuess r l).target = t := by
        rw [stepGuess_target, htarget]
      have hr2state : (stepGuess r l).state = 0 := by
        rw [stepGuess_state_hit r l hfound]
        exact hstate
      have hr2nul : (stepGuess r l).board (strlenB t) = nulChar := by
        rw [stepGuess_board]
        have hcond : ¬(strlenB t < MAX_LENGTH ∧ r.target (strlenB t) = l) := by
          rintro ⟨_, h2⟩
          rw [htarget, cstr_nul_at t hlen] at h2
          exact hlnul h2.symm
        rw [scanBoard_skip r.target r.board l (strlenB t) hcond]
        exact hnul
      have hr2cov : ∀ i, i < strlenB t → (stepGuess r l).board i = t i ∨ t i ∈ ls := by
        intro i hi
        rw [stepGuess_board]
        by_cases hc : r.target i = l
        · left
          rw [scanBoard_hit r.target r.board l i (lt_of_lt_of_le hi (strlenB_le t)) hc]
          rw [htarget] at hc
          exact hc.symm
        · rw [scanBoard_skip r.target r.board l i (by rintro ⟨_, h2⟩; exact hc h2)]
          rcases hcov i hi with h | h
          · exact Or.inl h
          · rcases List.mem_cons.mp h with h2 | h2
            · rw [htarget] at hc
              exact absurd h2 hc
            · exact Or.inr h2
      have ihres := ih (stepGuess r l) hr2target
        (fun l2 hl2 => hg l2 (List.mem_cons_of_mem l hl2)) hr2state hr2nul hr2cov
      constructor
      · rw [playGuesses_cons, happ]
        exact ihres.1
      · intro n
        cases n with
        | zero =>
          simp only [List.take_zero, playGuesses_nil]
          exact hstate
        | succ m =>
          rw [List.take_succ_cons, playGuesses_cons, happ]
          exact ihres.2 m

/-! Word-list helpers. -/

theorem wordAlreadyInFile_iff (fileLines : List (List Char)) (w : List Char) :
    WordAlreadyInFile fileLines w = true ↔ w ∈ fileLines := by
  simp [WordAlreadyInFile, List.any_eq_true, beq_iff_eq]

theorem nodup_append_single {α : Type} (xs : List α) (a : α)
    (hx : xs.Nodup) (ha : a ∉ xs) : (xs ++ [a]).Nodup := by
  induction xs with
  | nil => simp
  | cons x xs ih =>
    rcases List.nodup_cons.mp hx with ⟨hx1, hx2⟩
    have ha2 : a ∉ xs := fun h => ha (List.mem_cons_of_mem x h)
    have hax : x ≠ a := fun h => ha (by rw [← h]; exact List.mem_cons_self x xs)
    rw [List.cons_append, List.nodup_cons]
    refine ⟨?_, ih hx2 ha2⟩
    rw [List.mem_append]
    rintro (h | h)
    · exact hx1 h
    · simp at h
      exact hax h

theorem insertLoop_nodup : ∀ (inputs fileLines : List (List Char)),
    fileLines.Nodup → (WordInsertionLoop fileLines inputs).Nodup := by
  intro inputs
  induction inputs with
  | nil =>
    intro file hf
    simpa [WordInsertionLoop] using hf
  | cons l ls ih =>
    intro file hf
    by_cases h0 : l = [('0' : Char)]
    · simpa [WordInsertionLoop, h0] using hf
    · by_cases hv : IsValidWord l
      · by_cases hin : WordAlreadyInFile file l
        · simpa [WordInsertionLoop, h0, hv, hin] using ih file hf
        · have hnot : l ∉ file := fun hmem => hin ((wordAlreadyInFile_iff file l).mpr hmem)
          simpa [WordInsertionLoop, h0, hv, hin] using
            ih (file ++ [l]) (nodup_append_single file l hf hnot)
      · simpa [WordInsertionLoop, h0, hv] using hf

theorem insertLoop_dup_skip (fileLines : List (List Char)) (w : List Char)
    (rest : List (List Char)) (hv : IsValidWord w = true) (hw : w ∈ fileLines) :
    WordInsertionLoop fileLines (w :: rest) = WordInsertionLoop fileLines rest := by
  have h0 : ¬(w = [('0' : Char)]) := by
    intro he
    rw [he] at hv
    exact absurd hv (by decide)
  have hin : WordAlreadyInFile fileLines w = true := (wordAlreadyInFile_iff fileLines w).mpr hw
  simp [WordInsertionLoop, h0, hv, hin]

/-! Facts about the letter re-prompt loop. -/

theorem isalpha_ne_nul (c : Char) (h : isalphaChar c = true) : c ≠ nulChar := by
  intro hc
  rw [hc] at h
  exact absurd h (by decide)

theorem flushLoop_length_le_aux : ∀ (n : Nat) (s : List Char),
    s.length ≤ n → (flushLoop s).length ≤ s.length := by
  intro n
  induction n with
  | zero =>
    intro s hs
    have h0 : s = [] := List.length_eq_zero.mp (by omega)
    subst h0
    simp [flushLoop]
  | succ m ih =>
    intro s hs
    cases s with
    | nil => simp [flushLoop]
    | cons c1 rest =>
      cases rest with
      | nil => simp [flushLoop]
      | cons c2 rest2 =>
        by_cases h1 : c1 = nlChar
        · have h3 : flushLoop (c1 :: c2 :: rest2) = c2 :: rest2 := by
            simp [flushLoop, h1]
          rw [h3]
          simp only [List.length_cons]
          omega
        · have hr : rest2.length ≤ m := by
            simp only [List.length_cons] at hs
            omega
          have h2 := ih rest2 hr
          have h3 : flushLoop (c1 :: c2 :: rest2) = flushLoop rest2 := by
            simp [flushLoop, h1]
          rw [h3]
          simp only [List.length_cons]
          omega

theorem flushLoop_length_le (s : List Char) : (flushLoop s).length ≤ s.length :=
  flushLoop_length_le_aux s.length s (le_refl _)

theorem GetValidLetter_shrink (s : List Char) (hne : s ≠ [])
    (hinv : (GetValidLetter s).1 = nulChar) :
    (GetValidLetter s).2.length < s.length := by
  cases s with
  | nil => exact absurd rfl hne
  | cons ch rest =>
    by_cases ha : isalphaChar ch
    · cases rest with
      | nil =>
        simp [GetValidLetter, checkExtra, ha] at hinv
        exact absurd hinv (isalpha_ne_nul ch ha)
      | cons e rest2 =>
        by_cases he : e = nlChar
        · simp [GetValidLetter, checkExtra, ha, he] at hinv
          exact absurd hinv (isalpha_ne_nul ch ha)
        · have h2 : (GetValidLetter (ch :: e :: rest2)).2 = flushLoop rest2 := by
            simp [GetValidLetter, checkExtra, ha, he]
          rw [h2]
          have h3 := flushLoop_length_le rest2
          simp only [List.length_cons]
          omega
    · have h2 : (GetValidLetter (ch :: rest)).2 = flushLoop rest := by
        simp [GetValidLetter, ha]
      rw [h2]
      have h3 := flushLoop_length_le rest
      simp only [List.length_cons]
      omega

theorem getValidLetterFuel_nil : ∀ fuel, getValidLetterFuel fuel [] = none := by
  intro fuel
  induction fuel with
  | zero => rfl
  | succ m ih => simp [getValidLetterFuel, GetValidLetter, ih]

theorem getValidLetterFuel_congr : ∀ (fuel fuel' : Nat) (s : List Char),
    s.length ≤ fuel → s.length ≤ fuel' →
    getValidLetterFuel fuel s = getValidLetterFuel fuel' s := by
  intro fuel
  induction fuel with
  | zero =>
    intro fuel' s hs _
    have h0 : s = [] := List.length_eq_zero.mp (by omega)
    subst h0
    rw [getValidLetterFuel_nil, getValidLetterFuel_nil]
  | succ n ih =>
    intro fuel' s hs hs'
    cases s with
    | nil => rw [getValidLetterFuel_nil, getValidLetterFuel_nil]
    | cons ch rest =>
      cases fuel' with
      | zero =>
        simp only [List.length_cons] at hs'
        omega
      | succ m =>
        by_cases hinv : (GetValidLetter (ch :: rest)).1 = nulChar
        · have hlt := GetValidLetter_shrink (ch :: rest) (by simp) hinv
          have h1 : getValidLetterFuel (n + 1) (ch :: rest)
              = getValidLetterFuel n (GetValidLetter (ch :: rest)).2 := by
            simp [getValidLetterFuel, hinv]
          have h2 : getValidLetterFuel (m + 1) (ch :: rest)
              = getValidLetterFuel m (GetValidLetter (ch :: rest)).2 := by
            simp [getValidLetterFuel, hinv]
          rw [h1, h2]
          refine ih m (GetValidLetter (ch :: rest)).2 ?_ ?_
          · simp only [List.length_cons] at hs hlt
            omega
          · simp only [List.length_cons] at hs' hlt
            omega
        · have h1 : getValidLetterFuel (n + 1) (ch :: rest)
              = some (GetValidLetter (ch :: rest)) := by
            simp [getValidLetterFuel, hinv]
          have h2 : getValidLetterFuel (m + 1) (ch :: rest)
              = some (GetValidLetter (ch :: rest)) := by
            simp [getValidLetterFuel, hinv]
          rw [h1, h2]

theorem getValidLetterLoop_step (s : List Char) (hne : s ≠ [])
    (hinv : (GetValidLetter s).1 = nulChar) :
    getValidLetterLoop s = getValidLetterLoop (GetValidLetter s).2 := by
  unfold getValidLetterLoop
  cases s with
  | nil => exact absurd rfl hne
  | cons ch rest =>
    have hlt := GetValidLetter_shrink (ch :: rest) (by simp) hinv
    have h1 : getValidLetterFuel (ch :: rest).length (ch :: rest)
        = getValidLetterFuel rest.length (GetValidLetter (ch :: rest)).2 := by
      simp only [List.length_cons]
      simp [getValidLetterFuel, hinv]
    rw [h1]
    refine getValidLetterFuel_congr rest.length ((GetValidLetter (ch :: rest)).2.length)
      (GetValidLetter (ch :: rest)).2 ?_ (le_refl _)
    simp only [List.length_cons] at hlt
    omega

theorem resolveWithInputs_step (r : RoundState) (s : List Char) (hne : s ≠ [])
    (hinv : (GetValidLetter s).1 = nulChar) :
    resolveWithInputs r s = resolveWithInputs r (GetValidLetter s).2 := by
  unfold resolveWithInputs
  rw [getValidLetterLoop_step s hne hinv]

/-! Claim theorems. -/

/-- C1 (amended): for every in-progress round and every validated guessed
letter, the guess reveals on the board every position of the target word
whose character equals the letter and leaves every buffer position not
holding the letter unchanged; the guess is a hit with wrongGuesses
unchanged whenever the letter occurs somewhere in the MAX_LENGTH-byte
target buffer — in particular whenever it occurs in the target word — and
when the letter occurs nowhere in that buffer it is a miss and
wrongGuesses increases by exactly 1. -/
theorem C1_submitGuess_amended (r : RoundState) (letter : Char)
    (hprog : status r = Status.InProgress) (_hletter : isalphaChar letter = true) :
    (∀ i, i < strlenB r.target → r.target i = letter →
      (applyGuess r letter).board i = letter) ∧
    (∀ i, i < MAX_LENGTH → r.target i ≠ letter →
      (applyGuess r letter).board i = r.board i) ∧
    ((∃ i, i < strlenB r.target ∧ r.target i = letter) →
      (applyGuess r letter).state = r.state) ∧
    ((∃ i, i < MAX_LENGTH ∧ r.target i = letter) →
      (applyGuess r letter).state = r.state) ∧
    ((∀ i, i < MAX_LENGTH → r.target i ≠ letter) →
      (applyGuess r letter).state = r.state + 1) := by
  have happ := applyGuess_of_progress r letter hprog
  refine ⟨?_, ?_, ?_, ?_, ?_⟩
  · intro i hi hti
    rw [happ, stepGuess_board]
    exact scanBoard_hit r.target r.board letter i (lt_of_lt_of_le hi (strlenB_le r.target)) hti
  · intro i _ hne
    rw [happ, stepGuess_board]
    exact scanBoard_skip r.target r.board letter i (by rintro ⟨_, h2⟩; exact hne h2)
  · rintro ⟨i, hi, hti⟩
    rw [happ]
    refine stepGuess_state_hit r letter ?_
    rw [scanFound_iff]
    exact ⟨i, lt_of_lt_of_le hi (strlenB_le r.target), hti⟩
  · rintro ⟨i, hi, hti⟩
    rw [happ]
    refine stepGuess_state_hit r letter ?_
    rw [scanFound_iff]
    exact ⟨i, hi, hti⟩
  · intro h
    rw [happ]
    refine stepGuess_state_miss r letter ?_
    rw [scanFound_false_iff]
    exact h

/-- Witness for C1: on the fresh clean round with target cat, guessing the
letter c reveals board position 0 and leaves the counter unchanged. -/
theorem C1_submitGuess_amended_witness :
    status rCat = Status.InProgress ∧ isalphaChar 'c' = true ∧
    (applyGuess rCat 'c').board 0 = 'c' ∧ (applyGuess rCat 'c').state = rCat.state := by
  refine ⟨by decide, by decide, ?_, ?_⟩
  · exact (C1_submitGuess_amended rCat 'c' (by decide) (by decide)).1 0
      (by decide) (by decide)
  · exact (C1_submitGuess_amended rCat 'c' (by decide) (by decide)).2.2.1
      ⟨0, by decide, by decide⟩

/-- C1 counterexample: rcEx is the in-progress round reachable from the
word file with lines chants and cat when the draw picks cat; the
validated letter s occurs at no position of the target word, so the
claim as stated demands a miss with wrongGuesses increased by 1, but the
scan finds the residual buffer byte s beyond the terminator and leaves
wrongGuesses unchanged. -/
theorem C1_cex :
    status rcEx = Status.InProgress ∧
    isalphaChar 's' = true ∧
    (∀ i, i < strlenB rcEx.target → rcEx.target i ≠ 's') ∧
    (applyGuess rcEx 's').state = rcEx.state := by
  decide

/-- C2 (amended): from a fresh in-progress round, a sequence of exactly 6
consecutive guesses missed by the scan — letters occurring nowhere in the
MAX_LENGTH-byte target buffer — drives the round to Lost with the Game
Over banner revealing the target word, and after only 5 such misses the
round is still InProgress. -/
theorem C2_loss_boundary_amended (r : RoundState) (g : List Char)
    (hstate : r.state = 0) (hprog : status r = Status.InProgress)
    (hlen : g.length = 6)
    (hmiss : ∀ l ∈ g, ∀ i, i < MAX_LENGTH → r.target i ≠ l) :
    status (playGuesses r (g.take 5)) = Status.InProgress ∧
    status (playGuesses r g) = Status.Lost ∧
    lostBanner (playGuesses r g) = gameOverPre ++ cstr r.target ++ gameOverTail := by
  have hne : cstr r.board ≠ cstr r.target := ((status_inprogress_iff r).mp hprog).1
  have h5 := missRun (g.take 5) r
    (fun l hl i hi => hmiss l (List.take_subset 5 g hl) i hi) hne
    (by rw [hstate, List.length_take, hlen]; omega)
  have h6 := missRun g r hmiss hne (by rw [hstate, hlen])
  refine ⟨?_, ?_, ?_⟩
  · rw [status_inprogress_iff]
    constructor
    · rw [h5.2.1, h5.2.2]
      exact hne
    · rw [h5.1, hstate, List.length_take, hlen]
      omega
  · rw [status_lost_iff]
    constructor
    · rw [h6.2.1, h6.2.2]
      exact hne
    · rw [h6.1, hstate, hlen]
  · simp only [lostBanner, h6.2.2]

/-- Witness for C2: on the fresh clean round with target cat, the six
letters of sixMisses (none in the buffer) lose the round, while their
first five leave it in progress. -/
theorem C2_loss_boundary_witness :
    status (playGuesses rCat sixMisses) = Status.Lost ∧
    status (playGuesses rCat (sixMisses.take 5)) = Status.InProgress := by
  have h := C2_loss_boundary_amended rCat sixMisses rfl (by decide) (by decide) (by decide)
  exact ⟨h.2.1, h.1⟩

/-- C2 counterexample: in the reachable fresh round rcEx, the six
guesses of sMisses all avoid the target word cat, yet the round does not
reach Lost, because the first guess s is matched by a residual buffer
byte beyond the word's terminator and is not counted as a miss. -/
theorem C2_cex :
    rcEx.state = 0 ∧
    status rcEx = Status.InProgress ∧
    sMisses.length = 6 ∧
    (∀ l ∈ sMisses, l ∉ cstr rcEx.target) ∧
    status (playGuesses rcEx sMisses) ≠ Status.Lost := by
  decide

/-- C3: IsValidWord accepts a word exactly when its length is at least 2
and all of its characters are alphabetic; in particular a is rejected,
ab accepted and a1 rejected, and on either rejection path exactly the
diagnostic naming the failing word is produced. -/
theorem C3_validate :
    (∀ w : List Char,
      IsValidWord w = true ↔ (2 ≤ w.length ∧ ∀ c ∈ w, isalphaChar c = true)) ∧
    IsValidWord (("a").toList) = false ∧
    IsValidWord (("ab").toList) = true ∧
    IsValidWord (("a1").toList) = false ∧
    (∀ w, IsValidWord w = false → IsValidWordMsgs w = [invalidWordMsg w]) ∧
    (∀ w, IsValidWord w = true → IsValidWordMsgs w = []) := by
  refine ⟨?_, by decide, by decide, by decide, ?_, ?_⟩
  · intro w
    unfold IsValidWord
    split_ifs with h
    · constructor
      · intro hf
        exact absurd hf (by decide)
      · rintro ⟨h2, _⟩
        exact absurd h2 (by omega)
    · rw [List.all_eq_true]
      constructor
      · intro ha
        exact ⟨by omega, ha⟩
      · rintro ⟨_, ha⟩
        exact ha
  · intro w hf
    unfold IsValidWord at hf
    unfold IsValidWordMsgs
    split_ifs with h1 h2
    · rfl
    · rw [if_neg h1, h2] at hf
      exact absurd hf (by decide)
    · rfl
  · intro w ht
    unfold IsValidWord at ht
    unfold IsValidWordMsgs
    split_ifs with h1 h2
    · rw [if_pos h1] at ht
      exact absurd ht (by decide)
    · rfl
    · rw [if_neg h1] at ht
      exact absurd ht h2

/-- Witness for C3: the rejection of a1 produces the diagnostic naming it. -/
theorem C3_validate_witness :
    IsValidWordMsgs (("a1").toList) = [invalidWordMsg (("a1").toList)] ∧
    IsValidWordMsgs (("ab").toList) = [] := by
  refine ⟨?_, ?_⟩
  · exact C3_validate.2.2.2.2.1 (("a1").toList) (by decide)
  · exact C3_validate.2.2.2.2.2 (("ab").toList) (by decide)

/-- C4: for a target word (with its terminator inside the buffer) and any
sequence of guesses drawn from the word's letters that covers them all,
the round is won, the wrong-guess counter stays 0 at every step, and in
particular the deduplicated letter list — of length at most the word's
length — wins the round with counter 0. -/
theorem C4_round_won (t b0 : Buf) (g : List Char)
    (hlen : strlenB t < MAX_LENGTH)
    (hg : ∀ l ∈ g, l ∈ cstr t)
    (hcov : ∀ c ∈ cstr t, c ∈ g) :
    status (playGuesses (mkRound t b0) g) = Status.Won ∧
    (∀ n, (playGuesses (mkRound t b0) (g.take n)).state = 0) ∧
    ((cstr t).dedup.length ≤ (cstr t).length ∧
      status (playGuesses (mkRound t b0) (cstr t).dedup) = Status.Won ∧
      (playGuesses (mkRound t b0) (cstr t).dedup).state = 0) := by
  have hb0nul : (mkRound t b0).board (strlenB t) = nulChar := by
    show ConvertToBoard t b0 (strlenB t) = nulChar
    unfold ConvertToBoard
    rw [if_neg (by omega), if_pos rfl]
  have hcov0 : ∀ i, i < strlenB t → (mkRound t b0).board i = t i ∨ t i ∈ g := by
    intro i hi
    right
    exact hcov (t i) (cstr_mem t i hi)
  have hmain := wonRun t hlen g (mkRound t b0) rfl hg rfl hb0nul hcov0
  have hgd : ∀ l ∈ (cstr t).dedup, l ∈ cstr t := fun l hl => List.mem_dedup.mp hl
  have hcovd : ∀ i, i < strlenB t →
      (mkRound t b0).board i = t i ∨ t i ∈ (cstr t).dedup := by
    intro i hi
    right
    exact List.mem_dedup.mpr (cstr_mem t i hi)
  have hd := wonRun t hlen (cstr t).dedup (mkRound t b0) rfl hgd rfl hb0nul hcovd
  refine ⟨hmain.1, hmain.2, ?_, hd.1, ?_⟩
  · exact (List.dedup_sublist (cstr t)).length_le
  · have hn := hd.2 (cstr t).dedup.length
    rwa [List.take_length] at hn

/-- Witness for C4: guessing c, a, t on the clean cat round wins it with
the counter still 0 (the end-to-end example of the specification). -/
theorem C4_round_won_witness :
    status (playGuesses (mkRound tCat zeroBuf) ['c', 'a', 't']) = Status.Won ∧
    (playGuesses (mkRound tCat zeroBuf) (['c', 'a', 't'].take 3)).state = 0 := by
  have h := C4_round_won tCat zeroBuf ['c', 'a', 't'] (by decide) (by decide) (by decide)
  exact ⟨h.1, h.2.1 3⟩

/-- C5: at every reachable point of a round started on a word buffer,
every board position inside the target word is either the placeholder
underscore or the target's character there, and positions holding
non-alphabetic target characters always show the target character
(they are never replaced by the placeholder). -/
theorem C5_board_invariant (t b0 : Buf) (letters : List Char) (i : Nat)
    (hi : i < strlenB t) :
    ((playGuesses (mkRound t b0) letters).board i = '_' ∨
      (playGuesses (mkRound t b0) letters).board i = t i) ∧
    (isalphaChar (t i) = false → (playGuesses (mkRound t b0) letters).board i = t i) := by
  have step : ∀ (r : RoundState) (l : Char),
      (r.target = t ∧ ∀ j, j < strlenB t →
        ((r.board j = '_' ∨ r.board j = t j) ∧
          (isalphaChar (t j) = false → r.board j = t j))) →
      ((applyGuess r l).target = t ∧ ∀ j, j < strlenB t →
        (((applyGuess r l).board j = '_' ∨ (applyGuess r l).board j = t j) ∧
          (isalphaChar (t j) = false → (applyGuess r l).board j = t j))) := by
    rintro r l ⟨ht, hb⟩
    by_cases hp : status r = Status.InProgress
    · rw [applyGuess_of_progress r l hp]
      refine ⟨by rw [stepGuess_target, ht], ?_⟩
      intro j hj
      rw [stepGuess_board]
      by_cases hc : r.target j = l
      · rw [scanBoard_hit r.target r.board l j (lt_of_lt_of_le hj (strlenB_le t)) hc]
        rw [ht] at hc
        exact ⟨Or.inr hc.symm, fun _ => hc.symm⟩
      · rw [scanBoard_skip r.target r.board l j (by rintro ⟨_, h2⟩; exact hc h2)]
        exact hb j hj
    · rw [applyGuess_of_stopped r l hp]
      exact ⟨ht, hb⟩
  have init : (mkRound t b0).target = t ∧ ∀ j, j < strlenB t →
      (((mkRound t b0).board j = '_' ∨ (mkRound t b0).board j = t j) ∧
        (isalphaChar (t j) = false → (mkRound t b0).board j = t j)) := by
    refine ⟨rfl, ?_⟩
    intro j hj
    show (ConvertToBoard t b0 j = '_' ∨ ConvertToBoard t b0 j = t j) ∧
      (isalphaChar (t j) = false → ConvertToBoard t b0 j = t j)
    unfold ConvertToBoard
    rw [if_pos hj]
    by_cases ha : isalphaChar (t j)
    · rw [if_pos ha]
      refine ⟨Or.inl rfl, ?_⟩
      intro hfa
      rw [hfa] at ha
      exact absurd ha (by decide)
    · rw [if_neg ha]
      exact ⟨Or.inr rfl, fun _ => rfl⟩
  have final := playGuesses_inv _ step letters (mkRound t b0) init
  exact final.2 i hi

/-- Witness for C5: after guessing c on the clean cat round, board
position 0 satisfies the invariant. -/
theorem C5_board_invariant_witness :
    0 < strlenB tCat ∧
    ((playGuesses (mkRound tCat zeroBuf) ['c']).board 0 = '_' ∨
      (playGuesses (mkRound tCat zeroBuf) ['c']).board 0 = tCat 0) :=
  ⟨by decide, (C5_board_invariant tCat zeroBuf ['c'] 0 (by decide)).1⟩

/-- C6: the wrong-guess counter of a round starts at 0, stays in the
interval from 0 to 6 under every sequence of resolved guesses, and once
it reaches 6 the round's status is the terminal Lost. -/
theorem C6_wrong_guess_bound (t b0 : Buf) (letters : List Char) :
    (mkRound t b0).state = 0 ∧
    (playGuesses (mkRound t b0) letters).state ≤ 6 ∧
    ((playGuesses (mkRound t b0) letters).state = 6 →
      status (playGuesses (mkRound t b0) letters) = Status.Lost) := by
  have step : ∀ (r : RoundState) (l : Char),
      (r.state ≤ 6 ∧ (r.state = 6 → cstr r.board ≠ cstr r.target)) →
      ((applyGuess r l).state ≤ 6 ∧
        ((applyGuess r l).state = 6 →
          cstr (applyGuess r l).board ≠ cstr (applyGuess r l).target)) := by
    rintro r l ⟨_, _⟩
    by_cases hp : status r = Status.InProgress
    · have hiff := (status_inprogress_iff r).mp hp
      rw [applyGuess_of_progress r l hp]
      by_cases hf : scanFound r.target l = true
      · rw [stepGuess_state_hit r l hf]
        refine ⟨by omega, ?_⟩
        intro h6
        exact absurd h6 (by omega)
      · have hf2 : scanFound r.target l = false := by
          rw [Bool.eq_false_iff]
          exact hf
        rw [stepGuess_state_miss r l hf2]
        have hboard : scanBoard r.target r.board l = r.board :=
          scanBoard_miss r.target r.board l ((scanFound_false_iff r.target l).mp hf2)
        refine ⟨by omega, ?_⟩
        intro _
        rw [stepGuess_board, hboard, stepGuess_target]
        exact hiff.1
    · rw [applyGuess_of_stopped r l hp]
      exact ⟨by assumption, by assumption⟩
  have init : (mkRound t b0).state ≤ 6 ∧
      ((mkRound t b0).state = 6 → cstr (mkRound t b0).board ≠ cstr (mkRound t b0).target) := by
    constructor
    · show (0 : Nat) ≤ 6
      omega
    · intro h
      exact absurd (show (0 : Nat) = 6 from h) (by omega)
  have final := playGuesses_inv _ step letters (mkRound t b0) init
  refine ⟨rfl, final.1, ?_⟩
  intro h6
  rw [status_lost_iff]
  exact ⟨final.2 h6, by omega⟩

/-- Witness for C6: six clean misses on the cat round drive the counter
to exactly 6 and the status to Lost. -/
theorem C6_wrong_guess_bound_witness :
    (playGuesses (mkRound tCat zeroBuf) sixMisses).state = 6 ∧
    status (playGuesses (mkRound tCat zeroBuf) sixMisses) = Status.Lost := by
  refine ⟨by decide, ?_⟩
  exact (C6_wrong_guess_bound tCat zeroBuf sixMisses).2.2 (by decide)

/-- C7: the duplicate check finds a word exactly when it is stored;
appending an already-stored valid word is skipped by that check; and any
sequence of insertions guarded by validation and the duplicate check
keeps the word list free of duplicates. -/
theorem C7_no_duplicates :
    (∀ (fileLines : List (List Char)) (w : List Char),
        WordAlreadyInFile fileLines w = true ↔ w ∈ fileLines) ∧
    (∀ (fileLines : List (List Char)) (w : List Char) (rest : List (List Char)),
        IsValidWord w = true → w ∈ fileLines →
        WordInsertionLoop fileLines (w :: rest) = WordInsertionLoop fileLines rest) ∧
    (∀ (fileLines inputs : List (List Char)),
        fileLines.Nodup → (WordInsertionLoop fileLines inputs).Nodup) :=
  ⟨wordAlreadyInFile_iff, insertLoop_dup_skip,
    fun fileLines inputs => insertLoop_nodup inputs fileLines⟩

/-- Witness for C7: inserting ab into a list already holding ab changes
nothing, and inserting ab twice into an empty list leaves no duplicate. -/
theorem C7_no_duplicates_witness :
    WordInsertionLoop [abWord] (abWord :: [("0").toList])
      = WordInsertionLoop [abWord] [("0").toList] ∧
    (WordInsertionLoop [] [abWord, abWord, ("0").toList]).Nodup := by
  refine ⟨?_, ?_⟩
  · exact C7_no_duplicates.2.1 [abWord] abWord [("0").toList] (by decide) (by decide)
  · exact C7_no_duplicates.2.2 [] [abWord, abWord, ("0").toList] (by decide)

/-- C8 (amended): every rejected input produces a diagnostic and mutates
no game or word-list state.  A rejected guess — a first character that
is not alphabetic, or an alphabetic one followed by anything but a
newline — makes GetValidLetter flush the pending characters with
flushLoop (which reads them in pairs and can swallow characters of
following input lines) and the guess loop runs again on what remains
with the round untouched; a stream position holding exactly one
alphabetic letter before its newline is accepted and resolved.  A
candidate word failing Validate is diagnosed but terminates the add
session (WordInsertion returns) rather than re-prompting, leaving the
word list unchanged. -/
theorem C8_validation_amended (r : RoundState) (ch e : Char)
    (rest rest2 l sRest : List Char) (fileLines : List (List Char))
    (w : List Char) (ls : List (List Char)) :
    (isalphaChar ch = false →
      resolveWithInputs r (ch :: rest) = resolveWithInputs r (flushLoop rest) ∧
      GetValidLetterMsgs (ch :: rest) = [invalidLetterMsg]) ∧
    (isalphaChar ch = true → e ≠ nlChar →
      resolveWithInputs r (ch :: e :: rest2) = resolveWithInputs r (flushLoop rest2) ∧
      GetValidLetterMsgs (ch :: e :: rest2) = [invalidLetterMsg]) ∧
    (IsSingleLetter l = true →
      resolveWithInputs r (l ++ nlChar :: sRest) = (stepGuess r (l.getD 0 nulChar), sRest)) ∧
    (IsValidWord w = false → w ≠ [('0' : Char)] →
      WordInsertionLoop fileLines (w :: ls) = fileLines ∧
      IsValidWordMsgs w = [invalidWordMsg w]) := by
  refine ⟨?_, ?_, ?_, ?_⟩
  · intro h
    have hGV : GetValidLetter (ch :: rest) = (nulChar, flushLoop rest) := by
      simp [GetValidLetter, h]
    constructor
    · have hstep := resolveWithInputs_step r (ch :: rest) (by simp) (by rw [hGV])
      rw [hstep, hGV]
    · simp [GetValidLetterMsgs, h]
  · intro h he
    have hGV : GetValidLetter (ch :: e :: rest2) = (nulChar, flushLoop rest2) := by
      simp [GetValidLetter, checkExtra, h, he]
    constructor
    · have hstep := resolveWithInputs_step r (ch :: e :: rest2) (by simp) (by rw [hGV])
      rw [hstep, hGV]
    · simp [GetValidLetterMsgs, checkExtraMsgs, h, he]
  · intro hl
    cases l with
    | nil => simp [IsSingleLetter] at hl
    | cons c ls2 =>
      cases ls2 with
      | nil =>
        have hc : isalphaChar c = true := by simpa [IsSingleLetter] using hl
        have hcnul : c ≠ nulChar := isalpha_ne_nul c hc
        simp only [List.cons_append, List.nil_append, List.getD_cons_zero]
        have hGV : GetValidLetter (c :: nlChar :: sRest) = (c, sRest) := by
          simp [GetValidLetter, checkExtra, hc]
        have hloop : getValidLetterLoop (c :: nlChar :: sRest) = some (c, sRest) := by
          unfold getValidLetterLoop
          simp only [List.length_cons]
          simp [getValidLetterFuel, hGV, hcnul]
        simp [resolveWithInputs, hloop]
      | cons d ls3 => simp [IsSingleLetter] at hl
  · intro hv h0
    constructor
    · simp [WordInsertionLoop, h0, hv]
    · unfold IsValidWord at hv
      unfold IsValidWordMsgs
      split_ifs with h1 h2
      · rfl
      · rw [if_neg h1, h2] at hv
        exact absurd hv (by decide)
      · rfl

/-- Witness for C8: the invalid guess line 12 is rejected with the round
untouched, and its flush swallows the whole following line c as well;
the invalid word a1 leaves an empty word list empty while producing its
diagnostic. -/
theorem C8_validation_amended_witness :
    isalphaChar '1' = false ∧
    flushLoop ['2', '\n', 'c', '\n'] = [] ∧
    resolveWithInputs rCat ['1', '2', '\n', 'c', '\n']
      = resolveWithInputs rCat (flushLoop ['2', '\n', 'c', '\n']) ∧
    WordInsertionLoop [] [("a1").toList] = [] ∧
    IsValidWordMsgs (("a1").toList) = [invalidWordMsg (("a1").toList)] := by
  have h := C8_validation_amended rCat '1' 'x' ['2', '\n', 'c', '\n'] [] [] []
    [] (("a1").toList) []
  exact ⟨by decide, by decide, (h.1 (by decide)).1,
    (h.2.2.2 (by decide) (by decide)).1, (h.2.2.2 (by decide) (by decide)).2⟩

/-- C8 counterexample: after the invalid word a1 is rejected, the
insertion session ends instead of re-prompting — the following valid
word ab is never processed, although the same input without the invalid
line stores it. -/
theorem C8_cex :
    IsValidWord (("a1").toList) = false ∧
    IsValidWord abWord = true ∧
    WordInsertionLoop [] [("a1").toList, abWord, ("0").toList] = [] ∧
    WordInsertionLoop [] [abWord, ("0").toList] = [abWord] := by
  decide

/-- C9: with an empty word list WordGuessing refuses to start the round
with the user-facing message and a clean exit code 0, and no round (no
word draw, no guessing) is started. -/
theorem C9_empty_wordlist (lines : List (List Char)) (k : Nat) (t0 b0 : Buf)
    (h : CountWordsInFile lines = 0) :
    WordGuessing lines k t0 b0 = PlayOutcome.refused noWordsMsg 0 ∧
    ∀ r, WordGuessing lines k t0 b0 ≠ PlayOutcome.started r := by
  have h0 : CountWordsInFile lines ≤ 0 := by omega
  constructor
  · unfold WordGuessing
    rw [if_pos h0]
  · intro r
    unfold WordGuessing
    rw [if_pos h0]
    exact fun hc => PlayOutcome.noConfusion hc

/-- Witness for C9: the empty file refuses the round. -/
theorem C9_empty_wordlist_witness :
    CountWordsInFile ([] : List (List Char)) = 0 ∧
    WordGuessing [] 0 zeroBuf zeroBuf = PlayOutcome.refused noWordsMsg 0 :=
  ⟨rfl, (C9_empty_wordlist [] 0 zeroBuf zeroBuf rfl).1⟩

/-- C10: the guess scan ranges over all MAX_LENGTH buffer positions — in
the reachable round rcEx it reports the letter s found although s occurs
nowhere in the target word — and it writes into board positions at or
past the word's terminator, a position changing only when the
corresponding target-buffer byte equals the guessed letter (in which
case it receives that letter). -/
theorem C10_buffer_scan :
    (∀ (t b : Buf) (letter : Char) (i : Nat), i < MAX_LENGTH →
        scanBoard t b letter i ≠ b i →
        t i = letter ∧ scanBoard t b letter i = letter) ∧
    (scanFound rcEx.target 's' = true ∧ 's' ∉ cstr rcEx.target) ∧
    (∃ i, strlenB rcEx.target ≤ i ∧ i < MAX_LENGTH ∧
        scanBoard rcEx.target rcEx.board 's' i ≠ rcEx.board i ∧
        scanBoard rcEx.target rcEx.board 's' i = 's') := by
  refine ⟨?_, by decide, ?_⟩
  · intro t b letter i hi hne
    by_cases hc : t i = letter
    · exact ⟨hc, scanBoard_hit t b letter i hi hc⟩
    · exact absurd (scanBoard_skip t b letter i (by rintro ⟨_, h2⟩; exact hc h2)) hne
  · exact ⟨5, by decide, by decide, by decide, by decide⟩

/-- Witness for C10: in rcEx the scan for s modifies board index 5, past
the terminator of the word cat, because the target buffer holds s there. -/
theorem C10_buffer_scan_witness :
    5 < MAX_LENGTH ∧ scanBoard rcEx.target rcEx.board 's' 5 ≠ rcEx.board 5 ∧
    rcEx.target 5 = 's' := by
  refine ⟨by decide, by decide, ?_⟩
  exact (C10_buffer_scan.1 rcEx.target rcEx.board 's' 5 (by decide) (by decide)).1

end Hangman
